import Mathlib

/-!
Verification development for the scoutlight service-registration library.

The Python sources are shallowly embedded here:
  * Python strings are modelled as `List Char`;
  * Python dictionaries (insertion ordered) are modelled as association
    lists with replace-or-append insertion;
  * fallible code returns `Except`/`Option`;
  * the repository targets Python 2 (it uses `basestring` and `sys.maxint`),
    so `sys.maxint` is modelled as `2 ^ 63 - 1`.

Each modelled definition names the source function it embeds.
-/

set_option autoImplicit false
set_option linter.unusedVariables false

namespace Scoutlight

instance exceptDecEq {ε α : Type} [DecidableEq ε] [DecidableEq α] :
    DecidableEq (Except ε α) := fun a b =>
  match a, b with
  | .error e, .error f =>
    if h : e = f then isTrue (by rw [h]) else isFalse (fun hc => h (Except.error.inj hc))
  | .error _, .ok _ => isFalse (fun hc => Except.noConfusion hc)
  | .ok _, .error _ => isFalse (fun hc => Except.noConfusion hc)
  | .ok x, .ok y =>
    if h : x = y then isTrue (by rw [h]) else isFalse (fun hc => h (Except.ok.inj hc))

/-! ## Python string primitives (`scoutlight/tools/key_tools.py`) -/

/-- Characters stripped by Python 2 `str.strip()` for ASCII strings. -/
def isPySpace (c : Char) : Bool :=
  c = ' ' || c = '\t' || c = '\n' || c = '\r' || c = '\x0b' || c = '\x0c'

/-- Python `str.strip()`: drop leading and trailing whitespace. -/
def pyStrip (s : List Char) : List Char :=
  ((s.dropWhile isPySpace).reverse.dropWhile isPySpace).reverse

/-- `key_tools.normalize_key`, step 2: `if not key.startswith("/"): key = "/" + key`. -/
def ensureLeadingSlash (s : List Char) : List Char :=
  if s.head? = some '/' then s else '/' :: s

/-- `key_tools.normalize_key`, step 3: `while key.endswith("/"): key = key[:-1]`,
which removes every trailing forward slash. -/
def dropTrailingSlashes (s : List Char) : List Char :=
  (s.reverse.dropWhile (fun c => c = '/')).reverse

/-- One pass of Python `key.replace('//', '/')`: replace non-overlapping
occurrences of `//` left to right. -/
def replaceDS : List Char → List Char
  | [] => []
  | [c] => [c]
  | c :: d :: rest =>
    if c = '/' ∧ d = '/' then '/' :: replaceDS rest
    else c :: replaceDS (d :: rest)

/-- Python `'//' in key`. -/
def hasDS : List Char → Bool
  | [] => false
  | [_] => false
  | c :: d :: rest => (c = '/' && d = '/') || hasDS (d :: rest)

theorem replaceDS_length_le : ∀ (s : List Char), (replaceDS s).length ≤ s.length
  | [] => by simp [replaceDS]
  | [c] => by simp [replaceDS]
  | c :: d :: rest => by
    by_cases h : c = '/' ∧ d = '/'
    · have := replaceDS_length_le rest
      simp [replaceDS, h]; omega
    · have := replaceDS_length_le (d :: rest)
      simp [replaceDS, h]
      simpa using this

theorem replaceDS_length_lt : ∀ (s : List Char), hasDS s = true →
    (replaceDS s).length < s.length
  | [] => by simp [hasDS]
  | [c] => by simp [hasDS]
  | c :: d :: rest => by
    intro hds
    by_cases h : c = '/' ∧ d = '/'
    · have := replaceDS_length_le rest
      simp [replaceDS, h]; omega
    · have hds' : hasDS (d :: rest) = true := by
        simp [hasDS] at hds
        rcases hds with ⟨hc, hd⟩ | h2
        · exact absurd ⟨hc, hd⟩ h
        · exact h2
      have := replaceDS_length_lt (d :: rest) hds'
      simp [replaceDS, h]
      simpa using this

/-- `key_tools.normalize_key`, step 4, with explicit fuel so that the
definition reduces inside the kernel: each loop iteration strictly shortens
the string (`replaceDS_length_lt`), so `s.length` rounds always reach the
loop's exit condition (`hasDS_collapseSlashes` below). -/
def collapseFuel : Nat → List Char → List Char
  | 0, s => s
  | fuel + 1, s => if hasDS s = true then collapseFuel fuel (replaceDS s) else s

/-- `key_tools.normalize_key`, step 4: `while '//' in key: key = key.replace('//', '/')`. -/
def collapseSlashes (s : List Char) : List Char :=
  collapseFuel s.length s

theorem hasDS_collapseFuel : ∀ (fuel : Nat) (s : List Char), s.length ≤ fuel →
    hasDS (collapseFuel fuel s) = false
  | 0, s => by
    intro h
    have : s = [] := by
      cases s with
      | nil => rfl
      | cons c r => simp at h
    subst this
    simp [collapseFuel, hasDS]
  | fuel + 1, s => by
    intro h
    by_cases hds : hasDS s = true
    · have hlt := replaceDS_length_lt s hds
      have : (replaceDS s).length ≤ fuel := by omega
      simpa [collapseFuel, hds] using hasDS_collapseFuel fuel (replaceDS s) this
    · simp [collapseFuel, hds]

/-- The while loop of `normalize_key` exits only when no `//` remains. -/
theorem hasDS_collapseSlashes (s : List Char) : hasDS (collapseSlashes s) = false :=
  hasDS_collapseFuel s.length s (Nat.le_refl _)

/-- `key_tools.normalize_key`: trim, ensure a leading slash, strip trailing
slashes, collapse duplicate slashes. -/
def normalize_key (s : List Char) : List Char :=
  collapseSlashes (dropTrailingSlashes (ensureLeadingSlash (pyStrip s)))

/-- Python `str.split('/')`. -/
def pySplit : List Char → List (List Char)
  | [] => [[]]
  | c :: rest =>
    if c = '/' then [] :: pySplit rest
    else
      match pySplit rest with
      | s :: ss => (c :: s) :: ss
      | [] => [[c]]

/-- Python `'/'.join(args)`. -/
def joinSlash : List (List Char) → List Char
  | [] => []
  | [s] => s
  | s :: rest => s ++ '/' :: joinSlash rest

/-- `key_tools.construct_key`: join the parts with `/` and normalize. -/
def construct_key (parts : List (List Char)) : List Char :=
  normalize_key (joinSlash parts)

/-! ## The `Key` value (`scoutlight/registry/key.py`) -/

/-- `Key.__init__`: a canonical string plus its parts. -/
structure Key where
  key : List Char
  key_parts : List (List Char)
deriving DecidableEq, Repr

/-- `Key.create`: normalize the raw string and split it into parts
(`key.split('/')[1:]`). -/
def Key.create (raw : List Char) : Key :=
  let k := normalize_key raw
  ⟨k, (pySplit k).drop 1⟩

/-- `Key.key_length`. -/
def Key.key_length (k : Key) : Nat :=
  k.key_parts.length

/-- `Key.get_parent`: drop the last part and rebuild the canonical string. -/
def Key.get_parent (k : Key) : Key :=
  let parent := k.key_parts.dropLast
  ⟨construct_key parent, parent⟩

/-- Argument of `Key.relative`: Python takes `Union[Key, str]`. -/
inductive KeyOrStr where
  | asKey (k : Key)
  | asStr (s : List Char)

/-- `Key.relative`: append the extra parts and re-create the key from the
joined string. -/
def Key.relative (self : Key) (rel : KeyOrStr) : Key :=
  let extra := match rel with
    | .asKey other => other.key_parts
    | .asStr s => [s]
  Key.create (construct_key (self.key_parts ++ extra))

/-- `Key.__starts_with`: the sub-part list is an order-preserving prefix of
this key's parts. -/
def partsPrefix : List (List Char) → List (List Char) → Bool
  | [], _ => true
  | _ :: _, [] => false
  | a :: as, b :: bs => a = b && partsPrefix as bs

/-- `Key.is_a_parent`: the candidate is strictly shorter and its parts
prefix-match this key's parts. -/
def Key.is_a_parent (self parent : Key) : Bool :=
  decide (parent.key_length < self.key_length) && partsPrefix parent.key_parts self.key_parts

/-- `Key.is_immediate_parent`: a parent exactly one part shorter
(Python computes `self.key_length - 1` over the integers). -/
def Key.is_immediate_parent (self parent : Key) : Bool :=
  self.is_a_parent parent && decide ((self.key_length : Int) - 1 = (parent.key_length : Int))

/-- `KeyException` raised by `Key.remove_parent`. -/
inductive KeyErr where
  | keyException
deriving DecidableEq, Repr

/-- `Key.remove_parent`: strip the parent's parts, failing when the argument
is not a strict parent. -/
def Key.remove_parent (self parent : Key) : Except KeyErr Key :=
  if self.is_a_parent parent then
    .ok (Key.create (construct_key (self.key_parts.drop parent.key_length)))
  else
    .error .keyException

/-- `str.data` coercion used to write Python string literals in claims. -/
def cs (s : String) : List Char := s.data

/-! ## Exceptions and Python attribute resolution

`Registry.put_if_not_exist` executes `k = self._to_key(k)` and
`Registry.put_all` executes `kv_list = self._to_kv_list(values)`
(`scoutlight/registry/__init__.py`, lines 54 and 82).  Python resolves those
attribute names on the instance's method-resolution order at call time, so the
embedding records which attributes each class in the MRO of an
`InMemoryRegistry` instance actually defines. -/

inductive PyErr where
  /-- Python `AttributeError` for the named missing attribute. -/
  | attributeError (name : List Char)
  /-- Python `TypeError` (e.g. unpacking a non-iterable). -/
  | typeError
  /-- `scoutlight.registry.KeyDoesNotExist`. -/
  | keyDoesNotExist
deriving DecidableEq, Repr

/-- Attributes defined by `scoutlight/tools/lifecycle.py` on `Lifecycle`. -/
def lifecycleAttrs : List (List Char) :=
  [cs "setup", cs "destroy", cs "lifecycle_state", cs "_assert_state"]

/-- Attributes defined by `scoutlight/registry/__init__.py` on `Registry`. -/
def registryAttrs : List (List Char) :=
  [cs "setup", cs "destroy", cs "put_if_not_exist", cs "put", cs "put_all",
   cs "get", cs "list_keys", cs "fetch", cs "_put", cs "_get_one", cs "_get",
   cs "_as_key", cs "_assert_value", cs "_to_tuple_list"]

/-- Attributes defined by `scoutlight/registry/in_memory_registry.py` on
`InMemoryRegistry`. -/
def inMemoryRegistryAttrs : List (List Char) :=
  [cs "_put", cs "_get_one", cs "_get"]

/-- Attribute lookup on an `InMemoryRegistry` instance (its MRO is
`InMemoryRegistry → Registry → Lifecycle → object`; none of the relevant
names comes from `object`). -/
def inMemoryHasAttr (name : List Char) : Bool :=
  inMemoryRegistryAttrs.contains name || registryAttrs.contains name ||
    lifecycleAttrs.contains name

/-! ## `InMemoryRegistry` (`scoutlight/registry/in_memory_registry.py`)

The backing `OrderedDict` is modelled as an insertion-ordered association
list with replace-or-append assignment.  (In CPython 2 the `Key` class
defines `__eq__` but no `__hash__`, so equal-but-distinct `Key` objects hash
by identity; every scenario modelled below inserts pairwise-distinct
canonical keys, for which the two behaviours coincide.) -/

/-- The in-memory model: `self._model`, an ordered `Key → str` map. -/
abbrev Model := List (Key × List Char)

/-- Dict assignment `d[k] = v`: replace the existing entry in place or
append a new one. -/
def dictInsert {α : Type} [BEq α] : List (α × List Char) → α → List Char →
    List (α × List Char)
  | [], k, v => [(k, v)]
  | (k1, v1) :: rest, k, v =>
    if k1 == k then (k1, v) :: rest else (k1, v1) :: dictInsert rest k v

/-- Dict lookup `d[k]` / `k in d`. -/
def dictFind {α : Type} [BEq α] (d : List (α × List Char)) (k : α) :
    Option (List Char) :=
  (d.find? (fun p => p.1 == k)).map (·.2)

/-- Dict `d.pop(k, None)`: drop the entry for `k` if present. -/
def dictPop {α : Type} [BEq α] (d : List (α × List Char)) (k : α) :
    List (α × List Char) :=
  d.filter (fun p => !(p.1 == k))

/-- `InMemoryRegistry._put` with a list argument: bail out returning `False`
when the conditional key already exists, otherwise write every pair and
return `True`. -/
def inMemory_put (m : Model) (kv_list : List (Key × List Char))
    (conditional_key_exist : Option Key) : Bool × Model :=
  if conditional_key_exist.any (fun ck => (dictFind m ck).isSome) then
    (false, m)
  else
    (true, kv_list.foldl (fun acc p => dictInsert acc p.1 p.2) m)

/-- `InMemoryRegistry._put` as invoked by `Registry.put_if_not_exist`, which
passes the bare tuple `(k, value)` instead of a list: after the conditional
check, `for key, value in kv_list` iterates the tuple's two components (a
`Key` and a `str`), and unpacking either of them raises `TypeError`. -/
def inMemory_put_pair (m : Model) (p : Key × List Char)
    (conditional_key_exist : Option Key) : Except PyErr (Bool × Model) :=
  if conditional_key_exist.any (fun ck => (dictFind m ck).isSome) then
    .ok (false, m)
  else
    .error .typeError

/-- `InMemoryRegistry._get_one`. -/
def inMemory_get_one (m : Model) (get_key : Key) : Except PyErr (List Char) :=
  match dictFind m get_key with
  | none => .error .keyDoesNotExist
  | some v => .ok v

/-- `InMemoryRegistry._get`: scan the model in insertion order, keep the
immediate children (non-recursive) or all descendants (recursive), blank the
values when `keys_only`, and finally pop the parent key itself when
`exclude_parent_keys`.  The `keep_order` flag is accepted and ignored by the
in-memory implementation, exactly as in the source. -/
def inMemory_get (m : Model) (get_key : Key)
    (recursive keep_order keys_only exclude_parent_keys : Bool) :
    List (List Char × List Char) :=
  let _ := keep_order
  let result := m.foldl
    (fun result p =>
      let value := if keys_only then [] else p.2
      if !recursive && p.1.is_immediate_parent get_key then
        dictInsert result p.1.key value
      else if recursive && p.1.is_a_parent get_key then
        dictInsert result p.1.key value
      else result)
    []
  if exclude_parent_keys then dictPop result get_key.key else result

/-! ## `Registry` public operations (`scoutlight/registry/__init__.py`) -/

/-- `Registry._as_key`: coerce a string argument through `Key.create`. -/
def as_key : KeyOrStr → Key
  | .asKey k => k
  | .asStr s => Key.create s

/-- `Registry.put`: `self._put([(k, v)])` (a one-element list, no
condition); `_assert_value` accepts every string. -/
def registry_put (m : Model) (k : KeyOrStr) (v : List Char) : Model :=
  (inMemory_put m [(as_key k, v)] none).2

/-- `Registry.get`. -/
def registry_get (m : Model) (k : KeyOrStr) : Except PyErr (List Char) :=
  inMemory_get_one m (as_key k)

/-- `Registry.list_keys`: `list(self._get(key, recursive, keep_order, True,
True).keys())`. -/
def registry_list_keys (m : Model) (parent_key : KeyOrStr)
    (recursive keep_order : Bool) : List (List Char) :=
  (inMemory_get m (as_key parent_key) recursive keep_order true true).map (·.1)

/-- `Registry.fetch`: `self._get(key, recursive, keep_order, False, True)`. -/
def registry_fetch (m : Model) (parent_key : KeyOrStr)
    (recursive keep_order : Bool) : List (List Char × List Char) :=
  inMemory_get m (as_key parent_key) recursive keep_order false true

/-- `Registry.put_if_not_exist`: its first statement is
`k = self._to_key(k)`, and no class in the MRO defines `_to_key` (the
conversion helper that exists is `Registry._as_key`), so the attribute
lookup raises `AttributeError` before anything else runs.  The guarded
branch mirrors the remaining source lines
(`self._assert_value(value); return self._put((k, value), k)`) but is never
taken (`inMemoryHasAttr_to_key` below). -/
def registry_put_if_not_exist (m : Model) (k : KeyOrStr) (v : List Char) :
    Except PyErr (Bool × Model) :=
  if inMemoryHasAttr (cs "_to_key") then
    let kk := as_key k
    inMemory_put_pair m (kk, v) (some kk)
  else
    .error (.attributeError (cs "_to_key"))

/-- Input accepted by `Registry.put_all`: a mapping, a single pair or a list
of pairs. -/
inductive PutAllInput where
  | dict (entries : List (KeyOrStr × List Char))
  | pair (p : KeyOrStr × List Char)
  | listOfPairs (l : List (KeyOrStr × List Char))

/-- `Registry.put_all`: its first statement is
`kv_list = self._to_kv_list(values)`, and no class in the MRO defines
`_to_kv_list` (the converter that exists is named `Registry._to_tuple_list`),
so the attribute lookup raises `AttributeError` before any pair is examined
or written.  The guarded branch is never taken
(`inMemoryHasAttr_to_kv_list` below). -/
def registry_put_all (m : Model) (values : PutAllInput) :
    Except PyErr Model :=
  if inMemoryHasAttr (cs "_to_kv_list") then
    .ok m
  else
    .error (.attributeError (cs "_to_kv_list"))

theorem inMemoryHasAttr_to_key : inMemoryHasAttr (cs "_to_key") = false := by
  decide

theorem inMemoryHasAttr_to_kv_list :
    inMemoryHasAttr (cs "_to_kv_list") = false := by decide

/-! ## `Lifecycle` and `Etcd3Registry` (`scoutlight/tools/lifecycle.py`,
`scoutlight/registry/etcd3_registry.py`) -/

/-- The `Lifecycle` state machine `CREATED → INITIALIZED → DESTROYED`. -/
inductive LifecycleState where
  | CREATED
  | INITIALIZED
  | DESTROYED
deriving DecidableEq, Repr

/-- Errors surfaced by the lease-backed registry: `LifecycleException`
(the spec's `LifecycleError`) and `KeyDoesNotExist`. -/
inductive RegError where
  | lifecycleError
  | keyDoesNotExist
deriving DecidableEq, Repr

/-- `etcd3_registry.ROOT_KEY`. -/
def ROOT_KEY : Key := Key.create (cs "/registry")

/-- The external etcd3 key/value store visible to the client. -/
abbrev Etcd3Store := List (List Char × List Char)

/-- `self._client.get(key)`: `(value, metadata)` with `metadata = None` when
the key is absent. -/
def etcdGet (store : Etcd3Store) (k : List Char) : Option (List Char) :=
  (store.find? (fun p => p.1 == k)).map (·.2)

/-- `Etcd3Registry._to_ectd_key`: prefix the caller's key with the
registry's root key. -/
def etcd3_to_ectd_key (root_key : Key) (key : Key) : List Char :=
  (root_key.relative (.asKey key)).key

/-- `Etcd3Registry._get_one`, as reached from the public `Registry.get`.
The method translates the key and immediately issues `self._client.get`.
Neither `Registry.get` nor `Etcd3Registry._get_one` contains a call to
`Lifecycle._assert_state` (no such call appears anywhere in
`etcd3_registry.py`), so the lifecycle state is an argument the computation
never consults — exactly as in the source. -/
def etcd3_get_one (lifecycle_state : LifecycleState) (store : Etcd3Store)
    (root_key : Key) (get_key : Key) : Except RegError (List Char) :=
  match etcdGet store (etcd3_to_ectd_key root_key get_key) with
  | none => .error .keyDoesNotExist
  | some v => .ok v

/-- Public `get` on an `Etcd3Registry`: `self._get_one(self._as_key(k))`. -/
def etcd3_registry_get (lifecycle_state : LifecycleState) (store : Etcd3Store)
    (root_key : Key) (k : KeyOrStr) : Except RegError (List Char) :=
  etcd3_get_one lifecycle_state store root_key (as_key k)

/-! ## `RoundRobingServiceLocator` (`scoutlight/discovery/service_discovery.py`)

Member identifiers are Python strings carrying no character-level structure
here, so they are modelled as `String`. -/

/-- Python 2 `sys.maxint` on a 64-bit platform, the initial value of
`lowest_frequency` in `find_service`. -/
def maxint : Nat := 2 ^ 63 - 1

/-- `self._justice_table`, a `Dict[str, int]` of usage counts. -/
abbrev JusticeTable := List (String × Nat)

/-- Generic dict lookup with a default: `d.get(k, d0)`. -/
def dictGetD {α β : Type} [BEq α] (d : List (α × β)) (k : α) (d0 : β) : β :=
  match d.find? (fun p => p.1 == k) with
  | some p => p.2
  | none => d0

/-- Generic dict assignment `d[k] = v` (replace in place or append). -/
def dictSet {α β : Type} [BEq α] : List (α × β) → α → β → List (α × β)
  | [], k, v => [(k, v)]
  | (k1, v1) :: rest, k, v =>
    if k1 == k then (k1, v) :: rest else (k1, v1) :: dictSet rest k v

/-- `self._justice_table.get(member, 0)`. -/
def jtGet (jt : JusticeTable) (member : String) : Nat :=
  dictGetD jt member 0

/-- The loop body of `find_service`: record the member's carried-forward
usage count in the new justice table and track the minimum count together
with its owner. -/
def scanStep (justice_table : JusticeTable) (acc : JusticeTable × Nat × Option String)
    (member : String) : JusticeTable × Nat × Option String :=
  let usage_frequency := jtGet justice_table member
  (dictSet acc.1 member usage_frequency,
   if usage_frequency < acc.2.1 then usage_frequency else acc.2.1,
   if usage_frequency < acc.2.1 then some member else acc.2.2)

/-- `RoundRobingServiceLocator.find_service`: rebuild the justice table from
the fetched member list, pick the least-used member (`None` result models
`ServiceUnavailableException`), bump its count and install the new table. -/
def find_service (existing_members : List String) (justice_table : JusticeTable) :
    Option (String × JusticeTable) :=
  let acc := existing_members.foldl (scanStep justice_table) ([], maxint, none)
  match acc.2.2 with
  | none => none
  | some m => some (m, dictSet acc.1 m (acc.2.1 + 1))

/-- The locator's table after `n` successful `find_service` calls over a
fixed member list, starting from the empty table of `__init__`; `none` when
some call raised `ServiceUnavailableException`. -/
def locState (members : List String) : Nat → Option JusticeTable
  | 0 => some []
  | n + 1 =>
    match locState members n with
    | none => none
    | some jt => (find_service members jt).map (·.2)

/-! ## `PeriodicTimer` (`scoutlight/tools/periodic_timer.py`) -/

/-- The observable state of a `PeriodicTimer` around its `_run` loop. -/
structure TimerState where
  /-- `self._failure_count`. -/
  failure_count : Nat
  /-- `self._stop_event.is_set()`. -/
  stop_set : Bool
  /-- `self._running` (what `is_running()` reports). -/
  running : Bool
  /-- Number of `self.callback()` invocations so far. -/
  invocations : Nat
  /-- The `_run` loop has returned. -/
  exited : Bool
deriving DecidableEq, Repr

/-- State right after `start()`: `_run` has set `self._running = True`,
nothing has been invoked and no stop is signalled. -/
def timerStart : TimerState :=
  { failure_count := 0, stop_set := false, running := true,
    invocations := 0, exited := false }

/-- One iteration of `while not self._stop_event.wait(self._interval)`:
the wait observes the stop event (set internally by the failure threshold
or externally by `stop()`, the latter passed as `external_stop`); if it is
set the loop exits and `_run` clears `self._running`.  Otherwise the
callback runs: on success the consecutive-failure counter resets to zero;
on failure it is incremented and, once
`0 < self._max_failure_count <= self._failure_count`, the loop sets its own
stop event.  `cb n` tells whether the `n`-th callback invocation succeeds;
`max_failure_count` is an integer because `set_max_failure_count` accepts
non-positive values to disable the limit. -/
def timerStep (cb : Nat → Bool) (max_failure_count : Int) (external_stop : Bool)
    (s : TimerState) : TimerState :=
  if s.exited then s
  else if s.stop_set || external_stop then
    { s with stop_set := true, running := false, exited := true }
  else if cb s.invocations then
    { s with invocations := s.invocations + 1, failure_count := 0 }
  else
    let fc := s.failure_count + 1
    if 0 < max_failure_count ∧ max_failure_count ≤ (fc : Int) then
      { s with invocations := s.invocations + 1, failure_count := fc,
               stop_set := true }
    else
      { s with invocations := s.invocations + 1, failure_count := fc }

/-- The timer after `n` loop iterations.  `stop_at = some k` means `stop()`
signalled the event during (or before) wait number `k`, so every wait from
iteration `k` on observes it; `none` means `stop()` is never called. -/
def timerRun (cb : Nat → Bool) (max_failure_count : Int) (stop_at : Option Nat) :
    Nat → TimerState
  | 0 => timerStart
  | n + 1 =>
    timerStep cb max_failure_count (stop_at.any (fun k => k ≤ n))
      (timerRun cb max_failure_count stop_at n)

/-! ## Claim C1, C2 -/

/-- C1: `put_if_not_exist` on the layered registry never performs a
conditional put: its first statement `k = self._to_key(k)` resolves a
method that no class in the MRO defines (`Registry` defines `_as_key`), so
every call — in particular `put_if_not_exist("/x", "1")` on an empty
in-memory registry — raises `AttributeError` instead of returning a
boolean; no value is ever set. -/
theorem claim_C1_put_if_not_exist_attribute_error :
    ∀ (m : Model) (k : KeyOrStr) (v : List Char),
      registry_put_if_not_exist m k v = .error (.attributeError (cs "_to_key")) := by
  intro m k v
  simp [registry_put_if_not_exist, inMemoryHasAttr_to_key]

/-- C2: `put_all` never writes anything: its first statement
`kv_list = self._to_kv_list(values)` resolves a method that no class in the
MRO defines (the converter that exists is named `_to_tuple_list`), so every
call — for a mapping, a single pair or a list of pairs alike — raises
`AttributeError` before any pair becomes visible. -/
theorem claim_C2_put_all_attribute_error :
    ∀ (m : Model) (values : PutAllInput),
      registry_put_all m values = .error (.attributeError (cs "_to_kv_list")) := by
  intro m values
  simp [registry_put_all, inMemoryHasAttr_to_kv_list]

/-! ## Claim C3 -/

/-- C3: no public operation of the lease-backed registry checks the
lifecycle state.  `get("/x")` behaves identically in every lifecycle state,
and on a fresh registry (state `CREATED`, before `setup()`) it reaches the
store and returns the stored value `"1"` instead of failing with the
lifecycle error. -/
theorem claim_C3_etcd3_get_ignores_lifecycle_state :
    (∀ (ls : LifecycleState) (store : Etcd3Store) (root : Key) (k : KeyOrStr),
        etcd3_registry_get ls store root k =
          etcd3_registry_get .INITIALIZED store root k) ∧
    (∀ ls : LifecycleState,
        etcd3_registry_get ls [(cs "/registry/x", cs "1")] ROOT_KEY
          (.asStr (cs "/x")) = .ok (cs "1")) := by
  constructor
  · intro ls store root k
    rfl
  · intro ls
    cases ls <;> decide

/-! ## Claim C5 -/

/-- The registry model after the five puts of the spec's concrete
list-keys scenario. -/
def scenarioModel : Model :=
  registry_put (registry_put (registry_put (registry_put (registry_put []
    (.asStr (cs "/parent/child1")) (cs ""))
    (.asStr (cs "/parent/child2")) (cs ""))
    (.asStr (cs "/parent/child3")) (cs ""))
    (.asStr (cs "/parent/child3/A")) (cs ""))
    (.asStr (cs "/parentA")) (cs "")

/-- C5: on the in-memory registry holding `/parent/child1`,
`/parent/child2`, `/parent/child3`, `/parent/child3/A` and `/parentA`,
non-recursive `list_keys("/parent")` returns exactly the three immediate
children, the recursive variant additionally returns
`/parent/child3/A`, and neither result contains `/parentA` or the parent
key `/parent` itself. -/
theorem claim_C5_list_keys_scenario :
    registry_list_keys scenarioModel (.asStr (cs "/parent")) false false =
        [cs "/parent/child1", cs "/parent/child2", cs "/parent/child3"] ∧
    registry_list_keys scenarioModel (.asStr (cs "/parent")) true false =
        [cs "/parent/child1", cs "/parent/child2", cs "/parent/child3",
         cs "/parent/child3/A"] ∧
    (cs "/parentA") ∉
        registry_list_keys scenarioModel (.asStr (cs "/parent")) false false ∧
    (cs "/parentA") ∉
        registry_list_keys scenarioModel (.asStr (cs "/parent")) true false ∧
    (cs "/parent") ∉
        registry_list_keys scenarioModel (.asStr (cs "/parent")) false false ∧
    (cs "/parent") ∉
        registry_list_keys scenarioModel (.asStr (cs "/parent")) true false := by
  decide

/-! ## Claims C6 and C10 (PeriodicTimer) -/

theorem timer_fail3_final : ∀ n : Nat, 4 ≤ n →
    timerRun (fun _ => false) 3 none n =
      { failure_count := 3, stop_set := true, running := false,
        invocations := 3, exited := true } := by
  intro n h
  induction n with
  | zero => omega
  | succ m ih =>
    rcases Nat.lt_or_ge m 4 with hm | hm
    · have hm3 : m = 3 := by omega
      subst hm3
      decide
    · have he := ih (by omega)
      simp only [timerRun, he, Option.any_none]
      decide

/-- C6: with max-failure-count 3 and a callback that raises on every
invocation, the loop invokes the callback at most 3 times and from the
fourth iteration on has permanently exited with `failure_count = 3`,
`is_running() = False` and exactly 3 invocations; and on any iteration
whose callback succeeds, the consecutive-failure counter resets to zero. -/
theorem claim_C6_timer_self_stop :
    (∀ n : Nat, (timerRun (fun _ => false) 3 none n).invocations ≤ 3) ∧
    (∀ n : Nat, 4 ≤ n →
        timerRun (fun _ => false) 3 none n =
          { failure_count := 3, stop_set := true, running := false,
            invocations := 3, exited := true }) ∧
    (∀ (cb : Nat → Bool) (mf : Int) (ext : Bool) (s : TimerState),
        s.exited = false → s.stop_set = false → ext = false →
        cb s.invocations = true →
        (timerStep cb mf ext s).failure_count = 0) := by
  refine ⟨?_, timer_fail3_final, ?_⟩
  · intro n
    rcases Nat.lt_or_ge n 4 with h | h
    · interval_cases n <;> decide
    · rw [timer_fail3_final n h]
  · intro cb mf ext s hex hstop hext hcb
    simp [timerStep, hex, hstop, hext, hcb]

/-- Closed witness for C6 at concrete inputs. -/
theorem claim_C6_witness :
    (timerRun (fun _ => false) 3 none 5).invocations ≤ 3 ∧
    timerRun (fun _ => false) 3 none 5 =
      { failure_count := 3, stop_set := true, running := false,
        invocations := 3, exited := true } ∧
    (timerStep (fun _ => true) 3 false timerStart).failure_count = 0 :=
  ⟨claim_C6_timer_self_stop.1 5,
   claim_C6_timer_self_stop.2.1 5 (by decide),
   claim_C6_timer_self_stop.2.2 (fun _ => true) 3 false timerStart
     (by decide) (by decide) rfl rfl⟩

theorem timer_stop_at_zero : ∀ (cb : Nat → Bool) (mf : Int) (n : Nat), 1 ≤ n →
    timerRun cb mf (some 0) n =
      { failure_count := 0, stop_set := true, running := false,
        invocations := 0, exited := true } := by
  intro cb mf n h
  induction n with
  | zero => omega
  | succ m ih =>
    cases m with
    | zero =>
      simp [timerRun, timerStep, timerStart]
    | succ m2 =>
      have he := ih (by omega)
      simp only [timerRun] at he ⊢
      rw [he]
      simp [timerStep]

/-- C10: the loop waits before every callback invocation — an iteration
whose wait observes the stop signal performs no invocation — and a timer
whose stop signal arrives during the very first wait never invokes the
callback at all and ends not running. -/
theorem claim_C10_first_tick_delay :
    (∀ (cb : Nat → Bool) (mf : Int) (n : Nat),
        (timerRun cb mf (some 0) n).invocations = 0) ∧
    (∀ (cb : Nat → Bool) (mf : Int) (n : Nat), 1 ≤ n →
        (timerRun cb mf (some 0) n).running = false ∧
        (timerRun cb mf (some 0) n).exited = true) ∧
    (∀ (cb : Nat → Bool) (mf : Int) (ext : Bool) (s : TimerState),
        (s.stop_set || ext) = true →
        (timerStep cb mf ext s).invocations = s.invocations) := by
  refine ⟨?_, ?_, ?_⟩
  · intro cb mf n
    cases n with
    | zero => rfl
    | succ m => rw [timer_stop_at_zero cb mf (m + 1) (by omega)]
  · intro cb mf n h
    rw [timer_stop_at_zero cb mf n h]
    exact ⟨rfl, rfl⟩
  · intro cb mf ext s h
    by_cases hex : s.exited = true
    · simp [timerStep, hex]
    · simp only [Bool.not_eq_true] at hex
      simp [timerStep, hex, h]

/-- Closed witness for C10 at concrete inputs. -/
theorem claim_C10_witness :
    (timerRun (fun _ => true) 10 (some 0) 3).invocations = 0 ∧
    ((timerRun (fun _ => true) 10 (some 0) 3).running = false ∧
      (timerRun (fun _ => true) 10 (some 0) 3).exited = true) ∧
    (timerStep (fun _ => true) 10 true timerStart).invocations =
      timerStart.invocations :=
  ⟨claim_C10_first_tick_delay.1 (fun _ => true) 10 3,
   claim_C10_first_tick_delay.2.1 (fun _ => true) 10 3 (by decide),
   claim_C10_first_tick_delay.2.2 (fun _ => true) 10 true timerStart rfl⟩

/-! ## Round-robin fairness: lemma suite for claims C4 and C9 -/

/-- The count pattern reached after `n = q * M + r` successful calls over
`M` members: the first `r` members have been served `q + 1` times, the rest
`q` times. -/
def countsPat (q r M : Nat) : List Nat :=
  List.replicate r (q + 1) ++ List.replicate (M - r) q

/-- The selection component of the scan, folded over explicit
(member, count) pairs. -/
def selP (p : Nat × Option String) (pairs : List (String × Nat)) :
    Nat × Option String :=
  pairs.foldl (fun p x => if x.2 < p.1 then (x.2, some x.1) else p) p

/-- The selection component of one scan step over the member list. -/
def selStep (old : JusticeTable) (p : Nat × Option String) (member : String) :
    Nat × Option String :=
  (if jtGet old member < p.1 then jtGet old member else p.1,
   if jtGet old member < p.1 then some member else p.2)

theorem jtGet_nil (m : String) : jtGet [] m = 0 := rfl

theorem jtGet_cons (k : String) (c : Nat) (t : JusticeTable) (m : String) :
    jtGet ((k, c) :: t) m = if k = m then c else jtGet t m := by
  by_cases h : k = m
  · simp [jtGet, dictGetD, List.find?, h]
  · have hb : (k == m) = false := by simpa using h
    simp [jtGet, dictGetD, List.find?, hb, h]

theorem dictSet_append (t : JusticeTable) (m : String) (v : Nat)
    (h : ∀ p ∈ t, p.1 ≠ m) : dictSet t m v = t ++ [(m, v)] := by
  induction t with
  | nil => rfl
  | cons hd tl ih =>
    have hhd : hd.1 ≠ m := h hd (by simp)
    have hb : (hd.1 == m) = false := by simpa using hhd
    cases hd with
    | mk k w =>
      simp only [dictSet, hb]
      simp at hb
      simp [hb]
      exact ih (fun p hp => h p (by simp [hp]))

theorem scan_fold_table : ∀ (old : JusticeTable) (ms : List String)
    (acc : JusticeTable × Nat × Option String),
    (ms.foldl (scanStep old) acc).1 =
      ms.foldl (fun t m => dictSet t m (jtGet old m)) acc.1
  | old, [], acc => rfl
  | old, m :: ms, acc => by
    simpa [List.foldl_cons] using
      scan_fold_table old ms (scanStep old acc m)

theorem scan_fold_sel : ∀ (old : JusticeTable) (ms : List String)
    (acc : JusticeTable × Nat × Option String),
    (ms.foldl (scanStep old) acc).2 = ms.foldl (selStep old) acc.2
  | old, [], acc => rfl
  | old, m :: ms, acc => by
    simpa [List.foldl_cons] using scan_fold_sel old ms (scanStep old acc m)

theorem scan_fold_congr : ∀ (old1 old2 : JusticeTable) (ms : List String)
    (acc : JusticeTable × Nat × Option String),
    (∀ m ∈ ms, jtGet old1 m = jtGet old2 m) →
    ms.foldl (scanStep old1) acc = ms.foldl (scanStep old2) acc
  | old1, old2, [], acc, _ => rfl
  | old1, old2, m :: ms, acc, h => by
    have hm := h m (by simp)
    have hstep : scanStep old1 acc m = scanStep old2 acc m := by
      simp [scanStep, hm]
    simp only [List.foldl_cons, hstep]
    exact scan_fold_congr old1 old2 ms _ (fun x hx => h x (by simp [hx]))

/-- `find_service` reads the previous justice table only through
`jtGet` on fetched members, so tables agreeing there are interchangeable. -/
theorem find_service_congr (ms : List String) (t1 t2 : JusticeTable)
    (h : ∀ m ∈ ms, jtGet t1 m = jtGet t2 m) :
    find_service ms t1 = find_service ms t2 := by
  simp [find_service, scan_fold_congr t1 t2 ms ([], maxint, none) h]

theorem map_jtGet_zip : ∀ (ms : List String) (counts : List Nat),
    ms.Nodup → counts.length = ms.length →
    ms.map (jtGet (ms.zip counts)) = counts
  | [], [], _, _ => rfl
  | [], c :: cs, _, hlen => by simp at hlen
  | m :: ms, [], _, hlen => by simp at hlen
  | m :: ms, c :: cs, hnd, hlen => by
    have hm : m ∉ ms := (List.nodup_cons.mp hnd).1
    have hnd' : ms.Nodup := (List.nodup_cons.mp hnd).2
    have hlen' : cs.length = ms.length := by simpa using hlen
    have hcongr : ms.map (jtGet ((m, c) :: ms.zip cs)) =
        ms.map (jtGet (ms.zip cs)) := by
      apply List.map_congr_left
      intro x hx
      have hne : m ≠ x := fun he => hm (he ▸ hx)
      simp [jtGet_cons, hne]
    simp only [List.zip_cons_cons, List.map_cons, hcongr,
      map_jtGet_zip ms cs hnd' hlen']
    simp [jtGet_cons]

theorem jtGet_zip_mem : ∀ (ms : List String) (counts : List Nat) (m : String),
    counts.length = ms.length → m ∈ ms → jtGet (ms.zip counts) m ∈ counts
  | [], _, m, _, hm => by simp at hm
  | m1 :: ms, [], m, hlen, _ => by simp at hlen
  | m1 :: ms, c :: cs, m, hlen, hm => by
    by_cases h : m1 = m
    · simp [jtGet_cons, h]
    · have hm' : m ∈ ms := by
        rcases List.mem_cons.mp hm with he | hi
        · exact absurd he.symm h
        · exact hi
      have := jtGet_zip_mem ms cs m (by simpa using hlen) hm'
      simp [jtGet_cons, h, this]

theorem build_table : ∀ (old : JusticeTable) (ms : List String)
    (t : JusticeTable), ms.Nodup → (∀ p ∈ t, p.1 ∉ ms) →
    ms.foldl (fun t m => dictSet t m (jtGet old m)) t =
      t ++ ms.zip (ms.map (jtGet old))
  | old, [], t, _, _ => by simp
  | old, m :: ms, t, hnd, ht => by
    have hm : m ∉ ms := (List.nodup_cons.mp hnd).1
    have hnd' : ms.Nodup := (List.nodup_cons.mp hnd).2
    have hset : dictSet t m (jtGet old m) = t ++ [(m, jtGet old m)] :=
      dictSet_append t m _ (fun p hp => fun he => ht p hp (by simp [he]))
    have ht' : ∀ p ∈ t ++ [(m, jtGet old m)], p.1 ∉ ms := by
      intro p hp
      rcases List.mem_append.mp hp with h1 | h2
      · exact fun hin => ht p h1 (by simp [hin])
      · simp only [List.mem_singleton] at h2
        rw [h2]
        simpa using hm
    calc (m :: ms).foldl (fun t m => dictSet t m (jtGet old m)) t
        = ms.foldl (fun t m => dictSet t m (jtGet old m))
            (t ++ [(m, jtGet old m)]) := by rw [List.foldl_cons, hset]
      _ = (t ++ [(m, jtGet old m)]) ++ ms.zip (ms.map (jtGet old)) :=
          build_table old ms _ hnd' ht'
      _ = t ++ (m :: ms).zip ((m :: ms).map (jtGet old)) := by
          simp [List.append_assoc]

theorem selStep_eq_ite (old : JusticeTable) (p : Nat × Option String)
    (m : String) :
    selStep old p m = if jtGet old m < p.1 then (jtGet old m, some m) else p := by
  by_cases h : jtGet old m < p.1 <;> simp [selStep, h]

theorem sel_fold_congr : ∀ (t1 t2 : JusticeTable) (ms : List String)
    (p : Nat × Option String), (∀ m ∈ ms, jtGet t1 m = jtGet t2 m) →
    ms.foldl (selStep t1) p = ms.foldl (selStep t2) p
  | t1, t2, [], p, _ => rfl
  | t1, t2, m :: ms, p, h => by
    have hm := h m (by simp)
    have : selStep t1 p m = selStep t2 p m := by simp [selStep, hm]
    simp only [List.foldl_cons, this]
    exact sel_fold_congr t1 t2 ms _ (fun x hx => h x (by simp [hx]))

theorem sel_fold_eq_selP : ∀ (ms : List String) (counts : List Nat)
    (p : Nat × Option String), ms.Nodup → counts.length = ms.length →
    ms.foldl (selStep (ms.zip counts)) p = selP p (ms.zip counts)
  | [], [], p, _, _ => rfl
  | [], c :: cs, p, _, hlen => by simp at hlen
  | m :: ms, [], p, _, hlen => by simp at hlen
  | m :: ms, c :: cs, p, hnd, hlen => by
    have hm : m ∉ ms := (List.nodup_cons.mp hnd).1
    have hnd' : ms.Nodup := (List.nodup_cons.mp hnd).2
    have hlen' : cs.length = ms.length := by simpa using hlen
    have hhead : jtGet ((m, c) :: ms.zip cs) m = c := by simp [jtGet_cons]
    have hstep : selStep ((m, c) :: ms.zip cs) p m =
        if c < p.1 then (c, some m) else p := by
      rw [selStep_eq_ite, hhead]
    have hcongr : ms.foldl (selStep ((m, c) :: ms.zip cs))
          (if c < p.1 then (c, some m) else p) =
        ms.foldl (selStep (ms.zip cs)) (if c < p.1 then (c, some m) else p) := by
      apply sel_fold_congr
      intro x hx
      have hne : m ≠ x := fun he => hm (he ▸ hx)
      simp [jtGet_cons, hne]
    simp only [List.zip_cons_cons, List.foldl_cons, hstep, selP]
    rw [hcongr]
    exact sel_fold_eq_selP ms cs _ hnd' hlen'

theorem selP_app (p : Nat × Option String) (a b : List (String × Nat)) :
    selP p (a ++ b) = selP (selP p a) b := by
  simp [selP, List.foldl_append]

theorem selP_cons (p : Nat × Option String) (x : String × Nat)
    (pairs : List (String × Nat)) :
    selP p (x :: pairs) =
      selP (if x.2 < p.1 then (x.2, some x.1) else p) pairs := rfl

theorem selP_ge : ∀ (pairs : List (String × Nat)) (p : Nat × Option String),
    (∀ x ∈ pairs, p.1 ≤ x.2) → selP p pairs = p
  | [], p, _ => rfl
  | (m, c) :: rest, p, h => by
    have hc : p.1 ≤ c := h (m, c) (by simp)
    have hnc : ¬(c < p.1) := by omega
    simp only [selP, List.foldl_cons, if_neg hnc]
    exact selP_ge rest p (fun x hx => h x (by simp [hx]))

theorem selP_fst_lb : ∀ (pairs : List (String × Nat)) (p : Nat × Option String)
    (q : Nat), (∀ x ∈ pairs, q < x.2) → q < p.1 → q < (selP p pairs).1
  | [], p, q, _, hp => hp
  | x :: rest, p, q, h, hp => by
    have hx := h x (by simp)
    have htail : ∀ y ∈ rest, q < y.2 := fun y hy => h y (by simp [hy])
    by_cases hc : x.2 < p.1
    · simp only [selP, List.foldl_cons, if_pos hc]
      exact selP_fst_lb rest _ q htail hx
    · simp only [selP, List.foldl_cons, if_neg hc]
      exact selP_fst_lb rest _ q htail hp

/-- Scanning counts `q+1, …, q+1, q, …, q` (the second block non-empty,
`q` below the `sys.maxint` sentinel) selects the first member of the
second block with minimum `q`. -/
theorem selP_pattern (ms1 : List String) (m2 : String) (rest : List String)
    (q : Nat) (hq : q < maxint) :
    selP (maxint, none)
        (ms1.map (fun m => (m, q + 1)) ++ (m2, q) :: rest.map (fun m => (m, q))) =
      (q, some m2) := by
  rw [selP_app]
  have hp1 : q < (selP (maxint, none) (ms1.map (fun m => (m, q + 1)))).1 := by
    apply selP_fst_lb
    · intro x hx
      simp only [List.mem_map] at hx
      obtain ⟨a, _, rfl⟩ := hx
      omega
    · exact hq
  have hrest : ∀ x ∈ rest.map (fun m => (m, q)), (q : Nat) ≤ x.2 := by
    intro x hx
    simp only [List.mem_map] at hx
    obtain ⟨a, _, rfl⟩ := hx
    exact Nat.le_refl q
  have hp1' : ((m2, q).2 : Nat) <
      (selP (maxint, none) (ms1.map (fun m => (m, q + 1)))).1 := hp1
  rw [selP_cons, if_pos hp1']
  exact selP_ge (rest.map (fun m => (m, q))) ((m2, q).2, some (m2, q).1) hrest

theorem zip_rep : ∀ (xs : List String) (c : Nat) (n : Nat), xs.length = n →
    xs.zip (List.replicate n c) = xs.map (fun m => (m, c))
  | [], c, n, h => by simp
  | x :: xs, c, n, h => by
    cases n with
    | zero => simp at h
    | succ k =>
      simp only [List.replicate_succ, List.zip_cons_cons, List.map_cons]
      rw [zip_rep xs c k (by simpa using h)]

theorem countsPat_length (q r M : Nat) (h : r ≤ M) :
    (countsPat q r M).length = M := by
  simp [countsPat]
  omega

theorem countsPat_zero (q M : Nat) : countsPat q 0 M = List.replicate M q := by
  simp only [countsPat, List.replicate_zero, List.nil_append, Nat.sub_zero]

theorem countsPat_full (q M : Nat) : countsPat q M M = countsPat (q + 1) 0 M := by
  simp only [countsPat, Nat.sub_self, Nat.sub_zero, List.replicate_zero,
    List.append_nil, List.nil_append]

theorem set_append_len : ∀ (l1 l2 : List Nat) (v : Nat),
    (l1 ++ l2).set l1.length v = l1 ++ l2.set 0 v
  | [], l2, v => rfl
  | x :: l1, l2, v => by
    simp only [List.cons_append, List.length_cons, List.set_cons_succ]
    rw [set_append_len l1 l2 v]

theorem countsPat_set (q r M : Nat) (hr : r < M) :
    (countsPat q r M).set r (q + 1) = countsPat q (r + 1) M := by
  have hM : M - r = (M - (r + 1)) + 1 := by omega
  have h := set_append_len (List.replicate r (q + 1))
      (q :: List.replicate (M - (r + 1)) q) (q + 1)
  rw [List.length_replicate] at h
  simp only [countsPat, hM, List.replicate_succ]
  rw [h, List.set_cons_zero, List.append_cons, ← List.replicate_succ',
    List.replicate_succ, List.cons_append]

/-- Splitting the pattern table at index `r`. -/
theorem zip_countsPat (ms : List String) (q r : Nat) (hr : r < ms.length) :
    ms.zip (countsPat q r ms.length) =
      (ms.take r).map (fun m => (m, q + 1)) ++
        ((ms[r], q) :: (ms.drop (r + 1)).map (fun m => (m, q))) := by
  have htake : (ms.take r).length = r := by
    simp [List.length_take]
    omega
  have hzip : ms.zip (countsPat q r ms.length) =
      (ms.take r).zip (List.replicate r (q + 1)) ++
        (ms.drop r).zip (List.replicate (ms.length - r) q) := by
    calc ms.zip (countsPat q r ms.length)
        = (ms.take r ++ ms.drop r).zip
            (List.replicate r (q + 1) ++ List.replicate (ms.length - r) q) := by
          rw [List.take_append_drop]
          rfl
      _ = _ := List.zip_append (by simp [htake])
  rw [hzip, zip_rep (ms.take r) (q + 1) r htake]
  have hdrop : ms.drop r = ms[r] :: ms.drop (r + 1) :=
    List.drop_eq_getElem_cons hr
  have hdlen : (ms.drop (r + 1)).length = ms.length - (r + 1) := by simp
  rw [hdrop]
  have hrep : ms.length - r = (ms.length - (r + 1)) + 1 := by omega
  rw [hrep, List.replicate_succ, List.zip_cons_cons,
    zip_rep (ms.drop (r + 1)) q (ms.length - (r + 1)) hdlen]

theorem dictSet_zip : ∀ (ms : List String) (counts : List Nat) (r : Nat)
    (hr : r < ms.length), ms.Nodup → counts.length = ms.length → ∀ v : Nat,
    dictSet (ms.zip counts) (ms[r]) v = ms.zip (counts.set r v)
  | [], _, r, hr, _, _, v => by simp at hr
  | m :: ms, [], r, hr, _, hlen, v => by simp at hlen
  | m :: ms, c :: cs, 0, hr, hnd, hlen, v => by
    show dictSet ((m, c) :: ms.zip cs) m v = (m, v) :: ms.zip cs
    simp [dictSet]
  | m :: ms, c :: cs, r + 1, hr, hnd, hlen, v => by
    have hm : m ∉ ms := (List.nodup_cons.mp hnd).1
    have hr' : r < ms.length := by simpa using hr
    have hmem : ms[r] ∈ ms := List.getElem_mem hr'
    have hne : (m == ms[r]) = false := by
      simp only [beq_eq_false_iff_ne, ne_eq]
      exact fun he => hm (he ▸ hmem)
    show (if (m == (m :: ms)[r + 1]) = true then (m, v) :: ms.zip cs
          else (m, c) :: dictSet (ms.zip cs) ((m :: ms)[r + 1]) v) =
        (m, c) :: ms.zip (cs.set r v)
    have hgs : (m :: ms)[r + 1] = ms[r] := by simp
    rw [hgs, hne]
    simp only [Bool.false_eq_true, if_false]
    rw [dictSet_zip ms cs r hr' (List.nodup_cons.mp hnd).2 (by simpa using hlen) v]

/-- On the pattern table with minimum count `q < sys.maxint`, `find_service`
selects the member at index `r` (the first one with the minimum count) and
bumps its count. -/
theorem find_service_pattern_succ (ms : List String) (q r : Nat)
    (hnd : ms.Nodup) (hr : r < ms.length) (hq : q < maxint) :
    find_service ms (ms.zip (countsPat q r ms.length)) =
      some (ms[r], ms.zip ((countsPat q r ms.length).set r (q + 1))) := by
  have hlen : (countsPat q r ms.length).length = ms.length :=
    countsPat_length q r ms.length (by omega)
  have htab : (ms.foldl (scanStep (ms.zip (countsPat q r ms.length)))
      ([], maxint, none)).1 = ms.zip (countsPat q r ms.length) := by
    rw [scan_fold_table, build_table _ ms [] hnd (by simp),
      map_jtGet_zip ms _ hnd hlen]
    simp
  have hsel : (ms.foldl (scanStep (ms.zip (countsPat q r ms.length)))
      ([], maxint, none)).2 = (q, some (ms[r])) := by
    rw [scan_fold_sel, sel_fold_eq_selP ms _ _ hnd hlen]
    rw [zip_countsPat ms q r hr]
    exact selP_pattern (ms.take r) (ms[r]) (ms.drop (r + 1)) q hq
  simp only [find_service]
  rw [htab, hsel]
  show some (ms[r],
      dictSet (ms.zip (countsPat q r ms.length)) (ms[r]) (q + 1)) =
    some (ms[r], ms.zip ((countsPat q r ms.length).set r (q + 1)))
  rw [dictSet_zip ms _ r hr hnd hlen (q + 1)]

/-- On the pattern table with minimum count at least `sys.maxint`, the scan
selects nobody and `find_service` raises `ServiceUnavailableException`. -/
theorem find_service_pattern_fail (ms : List String) (q r : Nat)
    (hnd : ms.Nodup) (hr : r < ms.length) (hq : maxint ≤ q) :
    find_service ms (ms.zip (countsPat q r ms.length)) = none := by
  have hlen : (countsPat q r ms.length).length = ms.length :=
    countsPat_length q r ms.length (by omega)
  have hsel : (ms.foldl (scanStep (ms.zip (countsPat q r ms.length)))
      ([], maxint, none)).2 = (maxint, none) := by
    rw [scan_fold_sel, sel_fold_eq_selP ms _ _ hnd hlen]
    apply selP_ge
    intro x hx
    obtain ⟨m, c⟩ := x
    have hc : c ∈ countsPat q r ms.length := (List.of_mem_zip hx).2
    simp only [countsPat, List.mem_append, List.mem_replicate] at hc
    rcases hc with ⟨_, rfl⟩ | ⟨_, rfl⟩ <;> simp [maxint] at hq ⊢ <;> omega
  simp only [find_service]
  rw [hsel]

theorem countsPat_succ_index (n M : Nat) (hM : 0 < M) :
    countsPat (n / M) (n % M + 1) M =
      countsPat ((n + 1) / M) ((n + 1) % M) M := by
  have hdm := Nat.div_add_mod n M
  have hr : n % M < M := Nat.mod_lt _ hM
  rcases Nat.lt_or_ge (n % M + 1) M with h | h
  · have h1 : n + 1 = (n % M + 1) + M * (n / M) := by omega
    have hdiv : (n + 1) / M = n / M := by
      rw [h1, Nat.add_mul_div_left _ _ hM, Nat.div_eq_of_lt h, Nat.zero_add]
    have hmod : (n + 1) % M = n % M + 1 := by
      rw [h1, Nat.add_mul_mod_self_left, Nat.mod_eq_of_lt h]
    rw [hdiv, hmod]
  · have hrM : n % M + 1 = M := by omega
    have hmul : M * (n / M + 1) = M * (n / M) + M := by ring
    have h1 : n + 1 = M * (n / M + 1) := by omega
    have hdiv : (n + 1) / M = n / M + 1 := by
      rw [h1, Nat.mul_div_cancel_left _ hM]
    have hmod : (n + 1) % M = 0 := by
      rw [h1, Nat.mul_mod_right]
    rw [hdiv, hmod, hrM, countsPat_full]

/-- After `n` successful `find_service` calls over the fixed member list
`ms`, the justice table agrees on every member with the pattern table
`countsPat (n / M) (n % M) M`. -/
theorem locState_pattern (ms : List String) (hnd : ms.Nodup) (hne : ms ≠ []) :
    ∀ (n : Nat) (jt : JusticeTable), locState ms n = some jt →
    ∀ m ∈ ms, jtGet jt m =
      jtGet (ms.zip (countsPat (n / ms.length) (n % ms.length) ms.length)) m := by
  have hM : 0 < ms.length := List.length_pos.mpr hne
  intro n
  induction n with
  | zero =>
    intro jt h m hm
    have hjt : jt = [] := by simpa [locState] using h.symm
    subst hjt
    rw [Nat.zero_div, Nat.zero_mod, countsPat_zero, jtGet_nil]
    have hmem := jtGet_zip_mem ms (List.replicate ms.length 0) m (by simp) hm
    exact (List.eq_of_mem_replicate hmem).symm
  | succ n ih =>
    intro jt' h m hm
    rcases hn : locState ms n with _ | jt
    · rw [show locState ms (n + 1) =
          (match locState ms n with
           | none => none
           | some jt => (find_service ms jt).map (·.2)) from rfl, hn] at h
      exact absurd h (by simp)
    · simp only [locState, hn] at h
      obtain ⟨pr, hfs, hpr⟩ := Option.map_eq_some'.mp h
      have hequiv := ih jt hn
      have hcong := find_service_congr ms jt _ hequiv
      have hr : n % ms.length < ms.length := Nat.mod_lt _ hM
      by_cases hq : n / ms.length < maxint
      · have hres := find_service_pattern_succ ms (n / ms.length)
          (n % ms.length) hnd hr hq
        rw [hcong, hres] at hfs
        injection hfs with hfs2
        subst hfs2
        subst hpr
        rw [countsPat_set (n / ms.length) (n % ms.length) ms.length hr,
          countsPat_succ_index n ms.length hM]
      · push_neg at hq
        rw [hcong, find_service_pattern_fail ms (n / ms.length)
          (n % ms.length) hnd hr hq] at hfs
        exact absurd hfs (by simp)

/-! ## Claims C4 and C9 -/

/-- C4: over a fixed, duplicate-free, non-empty member list, after `N`
successful `find_service` calls with `N` a multiple of the member count
`M`, every member's justice-table count is exactly `N / M`: nobody is
starved or over-served. -/
theorem claim_C4_round_robin_fairness (ms : List String) (N : Nat)
    (jt : JusticeTable) (hnd : ms.Nodup) (hne : ms ≠ [])
    (hdvd : N % ms.length = 0) (h : locState ms N = some jt) :
    ∀ m ∈ ms, jtGet jt m = N / ms.length := by
  intro m hm
  have := locState_pattern ms hnd hne N jt h m hm
  rw [hdvd, countsPat_zero] at this
  rw [this]
  have hmem := jtGet_zip_mem ms (List.replicate ms.length (N / ms.length)) m
    (by simp) hm
  exact List.eq_of_mem_replicate hmem

/-- Closed witness for C4: two members, four calls, both counts equal 2. -/
theorem claim_C4_witness :
    jtGet [("a", 2), ("b", 2)] "a" = 4 / 2 ∧
    jtGet [("a", 2), ("b", 2)] "b" = 4 / 2 :=
  ⟨claim_C4_round_robin_fairness ["a", "b"] 4 [("a", 2), ("b", 2)]
     (by decide) (by decide) (by decide) (by decide) "a" (by decide),
   claim_C4_round_robin_fairness ["a", "b"] 4 [("a", 2), ("b", 2)]
     (by decide) (by decide) (by decide) (by decide) "b" (by decide)⟩

/-- C9: over a fixed, duplicate-free, non-empty member list, after every
number `n` of successful `find_service` calls any two members' counts
differ by at most one, and the counts sum to `n`. -/
theorem claim_C9_ledger_balance (ms : List String) (n : Nat)
    (jt : JusticeTable) (hnd : ms.Nodup) (hne : ms ≠ [])
    (h : locState ms n = some jt) :
    (∀ m1 ∈ ms, ∀ m2 ∈ ms, jtGet jt m1 ≤ jtGet jt m2 + 1) ∧
    (ms.map (jtGet jt)).sum = n := by
  have hM : 0 < ms.length := List.length_pos.mpr hne
  have hr : n % ms.length < ms.length := Nat.mod_lt _ hM
  have hlen : (countsPat (n / ms.length) (n % ms.length) ms.length).length =
      ms.length := countsPat_length _ _ _ (by omega)
  have hpt := locState_pattern ms hnd hne n jt h
  have hbound : ∀ m ∈ ms, jtGet jt m = n / ms.length ∨
      jtGet jt m = n / ms.length + 1 := by
    intro m hm
    have hv := hpt m hm
    have hmem := jtGet_zip_mem ms _ m hlen hm
    rw [← hv] at hmem
    simp only [countsPat, List.mem_append, List.mem_replicate] at hmem
    rcases hmem with ⟨_, hc⟩ | ⟨_, hc⟩
    · right; exact hc
    · left; exact hc
  constructor
  · intro m1 h1 m2 h2
    rcases hbound m1 h1 with hv1 | hv1 <;> rcases hbound m2 h2 with hv2 | hv2 <;>
      omega
  · have hmapeq : ms.map (jtGet jt) =
        ms.map (jtGet (ms.zip
          (countsPat (n / ms.length) (n % ms.length) ms.length))) :=
      List.map_congr_left hpt
    rw [hmapeq, map_jtGet_zip ms _ hnd hlen]
    have hdm := Nat.div_add_mod n ms.length
    have hsum : (countsPat (n / ms.length) (n % ms.length) ms.length).sum =
        (n % ms.length) * (n / ms.length + 1) +
          (ms.length - n % ms.length) * (n / ms.length) := by
      simp [countsPat, List.sum_append, List.sum_replicate, smul_eq_mul]
    rw [hsum]
    have h2 := Nat.sub_mul ms.length (n % ms.length) (n / ms.length)
    have h3 : (n % ms.length) * (n / ms.length) ≤
        ms.length * (n / ms.length) :=
      Nat.mul_le_mul_right _ (le_of_lt hr)
    have h1 : (n % ms.length) * (n / ms.length + 1) =
        (n % ms.length) * (n / ms.length) + n % ms.length := by ring
    omega

/-- Closed witness for C9: two members, three calls, counts 2 and 1. -/
theorem claim_C9_witness :
    (jtGet [("a", 2), ("b", 1)] "a" ≤ jtGet [("a", 2), ("b", 1)] "b" + 1) ∧
    (["a", "b"].map (jtGet [("a", 2), ("b", 1)])).sum = 3 :=
  ⟨(claim_C9_ledger_balance ["a", "b"] 3 [("a", 2), ("b", 1)]
      (by decide) (by decide) (by decide)).1 "a" (by decide) "b" (by decide),
   (claim_C9_ledger_balance ["a", "b"] 3 [("a", 2), ("b", 1)]
      (by decide) (by decide) (by decide)).2⟩

/-! ## Key invariants: lemma suite for claims C7 and C8 -/

/-- The spec's canonical-string invariant: begins with a (single) separator,
does not end with one, contains no repeated separators. -/
def goodString (s : List Char) : Bool :=
  (s.head? == some '/') && !(s.getLast? == some '/') && !hasDS s

/-- The spec's full `Key` invariant: canonical string plus a non-empty
sequence of non-empty segments. -/
def goodKey (k : Key) : Bool :=
  goodString k.key && !k.key_parts.isEmpty && k.key_parts.all (fun p => !p.isEmpty)

theorem replaceDS_eq_nil_iff : ∀ s : List Char, replaceDS s = [] ↔ s = []
  | [] => by simp [replaceDS]
  | [c] => by simp [replaceDS]
  | c :: d :: rest => by
    by_cases h : c = '/' ∧ d = '/' <;> simp [replaceDS, h]

theorem replaceDS_head : ∀ s : List Char, (replaceDS s).head? = s.head?
  | [] => rfl
  | [c] => rfl
  | c :: d :: rest => by
    by_cases h : c = '/' ∧ d = '/'
    · simp [replaceDS, h, h.1]
    · simp [replaceDS, h]

theorem getLast?_cons_ne (c : Char) (l : List Char) (h : l ≠ []) :
    (c :: l).getLast? = l.getLast? := by
  cases l with
  | nil => exact absurd rfl h
  | cons d r => exact List.getLast?_cons_cons

theorem replaceDS_getLast : ∀ s : List Char, s.getLast? ≠ some '/' →
    (replaceDS s).getLast? ≠ some '/'
  | [], h => h
  | [c], h => h
  | c :: d :: rest, h => by
    by_cases hcd : c = '/' ∧ d = '/'
    · have hrne : rest ≠ [] := by
        intro he
        subst he
        rw [List.getLast?_cons_cons, hcd.2] at h
        simp at h
      have hlast : rest.getLast? ≠ some '/' := by
        rwa [List.getLast?_cons_cons, getLast?_cons_ne d rest hrne] at h
      have hres := replaceDS_getLast rest hlast
      have hne : replaceDS rest ≠ [] := by
        rw [ne_eq, replaceDS_eq_nil_iff]
        exact hrne
      simp only [replaceDS, if_pos hcd]
      rwa [getLast?_cons_ne '/' (replaceDS rest) hne]
    · have hlast : (d :: rest).getLast? ≠ some '/' := by
        rwa [List.getLast?_cons_cons] at h
      have hres := replaceDS_getLast (d :: rest) hlast
      have hne : replaceDS (d :: rest) ≠ [] := by
        rw [ne_eq, replaceDS_eq_nil_iff]
        simp
      simp only [replaceDS, if_neg hcd]
      rwa [getLast?_cons_ne c (replaceDS (d :: rest)) hne]

theorem collapseFuel_eq_nil_iff : ∀ (fuel : Nat) (s : List Char),
    collapseFuel fuel s = [] ↔ s = []
  | 0, s => by simp [collapseFuel]
  | fuel + 1, s => by
    by_cases h : hasDS s = true
    · rw [show collapseFuel (fuel + 1) s = collapseFuel fuel (replaceDS s) by
        simp [collapseFuel, h]]
      rw [collapseFuel_eq_nil_iff fuel (replaceDS s), replaceDS_eq_nil_iff]
    · simp [collapseFuel, h]

theorem collapseFuel_head : ∀ (fuel : Nat) (s : List Char),
    (collapseFuel fuel s).head? = s.head?
  | 0, s => rfl
  | fuel + 1, s => by
    by_cases h : hasDS s = true
    · rw [show collapseFuel (fuel + 1) s = collapseFuel fuel (replaceDS s) by
        simp [collapseFuel, h]]
      rw [collapseFuel_head fuel (replaceDS s), replaceDS_head]
    · simp [collapseFuel, h]

theorem collapseFuel_getLast : ∀ (fuel : Nat) (s : List Char),
    s.getLast? ≠ some '/' → (collapseFuel fuel s).getLast? ≠ some '/'
  | 0, s, h => h
  | fuel + 1, s, h => by
    by_cases hds : hasDS s = true
    · rw [show collapseFuel (fuel + 1) s = collapseFuel fuel (replaceDS s) by
        simp [collapseFuel, hds]]
      exact collapseFuel_getLast fuel (replaceDS s) (replaceDS_getLast s h)
    · simpa [collapseFuel, hds] using h

theorem ensureLeadingSlash_head (s : List Char) :
    (ensureLeadingSlash s).head? = some '/' := by
  by_cases h : s.head? = some '/' <;> simp [ensureLeadingSlash, h]

theorem ensureLeadingSlash_ne_nil (s : List Char) : ensureLeadingSlash s ≠ [] := by
  intro h
  have := ensureLeadingSlash_head s
  rw [h] at this
  simp at this

theorem head?_dropWhile_not (p : Char → Bool) : ∀ (l : List Char) (a : Char),
    (l.dropWhile p).head? = some a → p a = false
  | [], a, ha => by simp at ha
  | c :: r, a, ha => by
    by_cases hc : p c = true
    · rw [List.dropWhile_cons_of_pos hc] at ha
      exact head?_dropWhile_not p r a ha
    · rw [List.dropWhile_cons_of_neg (by simpa using hc)] at ha
      simp only [List.head?_cons, Option.some.injEq] at ha
      rw [← ha]
      simpa using hc

theorem dropWhile_prefix_aux (p : Char → Bool) : ∀ l : List Char,
    ∃ u, u ++ l.dropWhile p = l
  | [] => ⟨[], rfl⟩
  | c :: r => by
    by_cases hc : p c = true
    · obtain ⟨u, hu⟩ := dropWhile_prefix_aux p r
      refine ⟨c :: u, ?_⟩
      rw [List.dropWhile_cons_of_pos hc]
      simpa using hu
    · refine ⟨[], ?_⟩
      rw [List.dropWhile_cons_of_neg (by simpa using hc)]
      rfl

theorem dropTrailingSlashes_getLast (s : List Char) :
    (dropTrailingSlashes s).getLast? ≠ some '/' := by
  rw [dropTrailingSlashes, List.getLast?_reverse]
  intro h
  have := head?_dropWhile_not (fun c => c = '/') s.reverse '/' h
  simp at this

theorem dropTrailingSlashes_prefix (s : List Char) :
    ∃ t, dropTrailingSlashes s ++ t = s := by
  obtain ⟨u, hu⟩ := dropWhile_prefix_aux (fun c => c = '/') s.reverse
  refine ⟨u.reverse, ?_⟩
  have := congrArg List.reverse hu
  simpa [dropTrailingSlashes, List.reverse_append] using this

theorem dropTrailingSlashes_head (s : List Char)
    (h : dropTrailingSlashes s ≠ []) :
    (dropTrailingSlashes s).head? = s.head? := by
  obtain ⟨t, ht⟩ := dropTrailingSlashes_prefix s
  calc (dropTrailingSlashes s).head?
      = ((dropTrailingSlashes s) ++ t).head? :=
        (List.head?_append_of_ne_nil _ h).symm
    _ = s.head? := by rw [ht]

theorem normalize_key_ne_nil_iff (raw : List Char) :
    normalize_key raw ≠ [] ↔
      dropTrailingSlashes (ensureLeadingSlash (pyStrip raw)) ≠ [] := by
  unfold normalize_key collapseSlashes
  exact not_congr (collapseFuel_eq_nil_iff _ _)

theorem normalize_key_head (raw : List Char) (h : normalize_key raw ≠ []) :
    (normalize_key raw).head? = some '/' := by
  have hs2 : dropTrailingSlashes (ensureLeadingSlash (pyStrip raw)) ≠ [] :=
    (normalize_key_ne_nil_iff raw).mp h
  unfold normalize_key collapseSlashes
  rw [collapseFuel_head, dropTrailingSlashes_head _ hs2, ensureLeadingSlash_head]

theorem normalize_key_getLast (raw : List Char) :
    (normalize_key raw).getLast? ≠ some '/' := by
  unfold normalize_key collapseSlashes
  exact collapseFuel_getLast _ _ (dropTrailingSlashes_getLast _)

theorem normalize_key_noDS (raw : List Char) :
    hasDS (normalize_key raw) = false := by
  unfold normalize_key collapseSlashes
  exact hasDS_collapseFuel _ _ (Nat.le_refl _)

theorem pySplit_ne_nil : ∀ l : List Char, pySplit l ≠ []
  | [] => by simp [pySplit]
  | c :: rest => by
    by_cases h : c = '/'
    · simp [pySplit, h]
    · simp only [pySplit, if_neg h]
      rcases hps : pySplit rest with _ | ⟨s, ss⟩
      · simp
      · simp

/-- Every piece of `s.split('/')` is non-empty when `s` does not start or
end with `/` and has no `//`. -/
theorem pySplit_all_ne : ∀ l : List Char, l ≠ [] → l.head? ≠ some '/' →
    hasDS l = false → l.getLast? ≠ some '/' → ∀ p ∈ pySplit l, p ≠ []
  | [], h, _, _, _ => absurd rfl h
  | [c], _, hh, _, _ => by
    have hc : c ≠ '/' := fun he => hh (by simp [he])
    simp [pySplit, hc]
  | c :: d :: rest, _, hh, hds, hlast => by
    have hc : c ≠ '/' := fun he => hh (by simp [he])
    have hds' : hasDS (d :: rest) = false := by
      simp only [hasDS, Bool.or_eq_false_iff] at hds
      exact hds.2
    have hlast' : (d :: rest).getLast? ≠ some '/' := by
      rwa [List.getLast?_cons_cons] at hlast
    by_cases hd : d = '/'
    · subst hd
      have hrne : rest ≠ [] := by
        intro he
        subst he
        simp at hlast
      have hrh : rest.head? ≠ some '/' := by
        intro hrh
        rcases rest with _ | ⟨x, r2⟩
        · exact hrne rfl
        · simp only [List.head?_cons, Option.some.injEq] at hrh
          simp [hasDS, hrh] at hds'
      have hrds : hasDS rest = false := by
        rcases rest with _ | ⟨x, r2⟩
        · rfl
        · simp only [hasDS, Bool.or_eq_false_iff] at hds'
          exact hds'.2
      have hrlast : rest.getLast? ≠ some '/' := by
        rwa [getLast?_cons_ne '/' rest hrne] at hlast'
      have hrec := pySplit_all_ne rest hrne hrh hrds hrlast
      intro p hp
      have hshape : pySplit (c :: '/' :: rest) = [c] :: pySplit rest := by
        simp [pySplit, hc]
      rw [hshape] at hp
      rcases List.mem_cons.mp hp with he | hi
      · subst he
        simp
      · exact hrec p hi
    · have hdh : (d :: rest).head? ≠ some '/' := by simp [hd]
      have hrec := pySplit_all_ne (d :: rest) (by simp) hdh hds' hlast'
      intro p hp
      rcases hps : pySplit (d :: rest) with _ | ⟨s, ss⟩
      · exact absurd hps (pySplit_ne_nil _)
      · have h1 : pySplit (c :: d :: rest) =
            if c = '/' then [] :: pySplit (d :: rest)
            else
              match pySplit (d :: rest) with
              | st :: sst => (c :: st) :: sst
              | [] => [[c]] := rfl
        have hshape : pySplit (c :: d :: rest) = (c :: s) :: ss := by
          rw [h1, if_neg hc, hps]
        rw [hshape] at hp
        rcases List.mem_cons.mp hp with he | hi
        · subst he
          simp
        · refine hrec p ?_
          rw [hps]
          exact List.mem_cons_of_mem s hi

theorem goodKey_iff (k : Key) : goodKey k = true ↔
    (k.key.head? = some '/' ∧ k.key.getLast? ≠ some '/' ∧
     hasDS k.key = false ∧ k.key_parts ≠ [] ∧ ∀ p ∈ k.key_parts, p ≠ []) := by
  unfold goodKey goodString
  simp only [Bool.and_eq_true, beq_iff_eq, Bool.not_eq_true',
    beq_eq_false_iff_ne, ne_eq, List.all_eq_true, List.isEmpty_eq_false,
    List.isEmpty_iff]
  tauto

/-- `Key.create` yields an invariant-respecting key whenever normalization
produces a non-empty canonical string. -/
theorem create_good (raw : List Char) (hk0 : (Key.create raw).key ≠ []) :
    goodKey (Key.create raw) = true := by
  have h : normalize_key raw ≠ [] := hk0
  have hh := normalize_key_head raw h
  have hl := normalize_key_getLast raw
  have hds := normalize_key_noDS raw
  rcases hk : normalize_key raw with _ | ⟨c, rest⟩
  · exact absurd hk h
  · rw [hk] at hh hl hds
    simp only [List.head?_cons, Option.some.injEq] at hh
    subst hh
    have hrne : rest ≠ [] := by
      intro he
      subst he
      simp at hl
    have hrh : rest.head? ≠ some '/' := by
      intro hrh
      rcases rest with _ | ⟨x, r2⟩
      · exact hrne rfl
      · simp only [List.head?_cons, Option.some.injEq] at hrh
        simp [hasDS, hrh] at hds
    have hrds : hasDS rest = false := by
      rcases rest with _ | ⟨x, r2⟩
      · rfl
      · simp only [hasDS, Bool.or_eq_false_iff] at hds
        exact hds.2
    have hrlast : rest.getLast? ≠ some '/' := by
      rwa [getLast?_cons_ne '/' rest hrne] at hl
    have hall := pySplit_all_ne rest hrne hrh hrds hrlast
    have hkey : (Key.create raw).key = '/' :: rest := hk
    have hparts : (Key.create raw).key_parts = pySplit rest := by
      show (pySplit (normalize_key raw)).drop 1 = pySplit rest
      rw [hk]
      rw [show pySplit ('/' :: rest) = [] :: pySplit rest by simp [pySplit]]
      rfl
    rw [goodKey_iff, hkey, hparts]
    exact ⟨rfl, hl, hds, pySplit_ne_nil rest, hall⟩

/-- `Key.relative` yields an invariant-respecting key whenever the re-created
key's canonical string is non-empty. -/
theorem relative_good (k : Key) (x : KeyOrStr) (h : (k.relative x).key ≠ []) :
    goodKey (k.relative x) = true := by
  cases x with
  | asKey o =>
    have he : k.relative (.asKey o) =
        Key.create (construct_key (k.key_parts ++ o.key_parts)) := rfl
    rw [he] at h ⊢
    exact create_good _ h
  | asStr s =>
    have he : k.relative (.asStr s) =
        Key.create (construct_key (k.key_parts ++ [s])) := rfl
    rw [he] at h ⊢
    exact create_good _ h

/-- `Key.get_parent` yields an invariant-respecting key whenever the input
key's segments are non-empty and the reconstructed canonical string is
non-empty. -/
theorem get_parent_good (k : Key) (hp : ∀ p ∈ k.key_parts, p ≠ [])
    (h : k.get_parent.key ≠ []) : goodKey k.get_parent = true := by
  have hkey : k.get_parent.key = construct_key k.key_parts.dropLast := rfl
  have hparts : k.get_parent.key_parts = k.key_parts.dropLast := rfl
  have hnil : normalize_key (joinSlash k.key_parts.dropLast) ≠ [] := h
  rw [goodKey_iff, hkey, hparts]
  refine ⟨normalize_key_head _ hnil, normalize_key_getLast _,
    normalize_key_noDS _, ?_, ?_⟩
  · intro he
    apply h
    rw [hkey, he]
    rfl
  · intro p hpm
    exact hp p (List.dropLast_subset k.key_parts hpm)

/-- `Key.remove_parent` yields an invariant-respecting key whenever it
succeeds and the suffix's canonical string is non-empty. -/
theorem remove_parent_good (k p k' : Key) (h : k.remove_parent p = .ok k')
    (h2 : k'.key ≠ []) : goodKey k' = true := by
  unfold Key.remove_parent at h
  by_cases hip : k.is_a_parent p = true
  · rw [if_pos hip] at h
    injection h with h3
    subst h3
    exact create_good (construct_key (k.key_parts.drop p.key_length)) h2
  · rw [if_neg hip] at h
    exact absurd h (by simp)

/-! ## Claims C7 and C8 -/

/-- C7 as stated is false: `Key.create("")` (the string operations impose no
validity check) yields the degenerate key whose canonical string is empty —
it does not begin with a separator and its segment sequence is empty. -/
theorem claim_C7_counterexample :
    goodKey (Key.create (cs "")) = false ∧ (Key.create (cs "")).key = [] ∧
      (Key.create (cs "")).key_parts = [] := by
  decide

/-- C7 (amended): every key produced by `create`, `relative`, `get_parent`
(from a key with non-empty segments) or a successful `remove_parent` whose
canonical string is non-empty satisfies the invariant — leading single
separator, no trailing separator, no repeated separators, and a non-empty
sequence of non-empty segments.  Degenerate empty normalizations (e.g.
`Key.create("")`) are the only escape. -/
theorem claim_C7_key_invariants :
    (∀ raw : List Char, (Key.create raw).key ≠ [] →
        goodKey (Key.create raw) = true) ∧
    (∀ (k : Key) (x : KeyOrStr), (k.relative x).key ≠ [] →
        goodKey (k.relative x) = true) ∧
    (∀ k : Key, (∀ p ∈ k.key_parts, p ≠ []) → k.get_parent.key ≠ [] →
        goodKey k.get_parent = true) ∧
    (∀ k p k' : Key, k.remove_parent p = .ok k' → k'.key ≠ [] →
        goodKey k' = true) :=
  ⟨create_good, relative_good, get_parent_good, remove_parent_good⟩

/-- Closed witness for C7 at concrete inputs. -/
theorem claim_C7_witness :
    goodKey (Key.create (cs "/a/b")) = true ∧
    goodKey ((Key.create (cs "/a")).relative (.asStr (cs "b"))) = true ∧
    goodKey (Key.create (cs "/a/b")).get_parent = true ∧
    goodKey (Key.create (cs "/b")) = true :=
  ⟨claim_C7_key_invariants.1 (cs "/a/b") (by decide),
   claim_C7_key_invariants.2.1 (Key.create (cs "/a")) (.asStr (cs "b"))
     (by decide),
   claim_C7_key_invariants.2.2.1 (Key.create (cs "/a/b")) (by decide)
     (by decide),
   claim_C7_key_invariants.2.2.2 (Key.create (cs "/a/b")) (Key.create (cs "/a"))
     (Key.create (cs "/b")) (by decide) (by decide)⟩

theorem normalize_key_eq_nil_iff (raw : List Char) :
    normalize_key raw = [] ↔ (pyStrip raw).all (fun c => c == '/') = true := by
  unfold normalize_key collapseSlashes
  rw [collapseFuel_eq_nil_iff]
  unfold dropTrailingSlashes
  rw [List.reverse_eq_nil_iff, List.dropWhile_eq_nil_iff]
  simp only [List.mem_reverse, List.all_eq_true, beq_iff_eq, decide_eq_true_eq]
  constructor
  · intro hall c hc
    apply hall
    unfold ensureLeadingSlash
    by_cases hh : (pyStrip raw).head? = some '/'
    · rw [if_pos hh]
      exact hc
    · rw [if_neg hh]
      exact List.mem_cons_of_mem '/' hc
  · intro hall c hc
    unfold ensureLeadingSlash at hc
    by_cases hh : (pyStrip raw).head? = some '/'
    · rw [if_pos hh] at hc
      exact hall c hc
    · rw [if_neg hh] at hc
      rcases List.mem_cons.mp hc with he | hi
      · exact he
      · exact hall c hi

/-- C8 as stated is false on two points: `Key.create("")` does not fail —
no `InvalidKey` exists anywhere in the code and `normalize_key` has no
failure path for string input — it returns the degenerate empty key; and an
input consisting only of whitespace and separators after trimming, such as
`"/ /"`, is not rejected either: it yields the non-empty key `"/ "` with
the single whitespace segment `" "`. -/
theorem claim_C8_counterexample :
    Key.create (cs "") = { key := [], key_parts := [] } ∧
    (Key.create (cs "/ /")).key = cs "/ " ∧
    (Key.create (cs "/ /")).key_parts = [cs " "] := by
  decide

/-- C8 (amended): `Key.create` never raises; for every string it returns
the normalized key (trimmed, leading separator ensured, trailing separators
stripped, repeated separators collapsed) split into segments after the
leading separator, and the result is the degenerate empty key exactly when
the trimmed input consists solely of separator characters (in particular
the empty string). -/
theorem claim_C8_create_total :
    ∀ raw : List Char,
      (Key.create raw).key = normalize_key raw ∧
      (Key.create raw).key_parts = (pySplit (normalize_key raw)).drop 1 ∧
      ((Key.create raw).key = [] ↔
        (pyStrip raw).all (fun c => c == '/') = true) := by
  intro raw
  exact ⟨rfl, rfl, normalize_key_eq_nil_iff raw⟩

end Scoutlight
